import Mathlib

/-!
Verification of the clogs scoped, levelled logging package: a shallow
embedding of src/logger.go (levels, terminal geometry, scope/prefix
rendering, and the escape-aware output transformer `writerScanner`),
with theorems settling the spec's claims about it.
-/

namespace Clogs

/-- Log levels in increasing severity order (src/logger.go `LogLevel`). -/
inductive LogLevel where
  | trace
  | debug
  | info
  | notice
  | warn
  | error
deriving DecidableEq, Repr

/-- Numeric value of a level (the Go enum's iota order). -/
def LogLevel.toNat : LogLevel → Nat
  | .trace => 0
  | .debug => 1
  | .info => 2
  | .notice => 3
  | .warn => 4
  | .error => 5

/-- Terminal geometry (src/logger.go `terminalSize`). Go's uint16 fields are
modelled as naturals reduced mod 2^16 where they are computed. -/
structure terminalSize where
  margin : Nat
  width : Nat
  height : Nat
deriving DecidableEq, Repr

/-- The geometry `syncTermSize` stores when the OS reports width `w` and
height `h` (the initial store and the WINCH watcher use the same formula):
margin = max(16, w/5), every field cast to uint16. -/
def computeGeometry (w h : Nat) : terminalSize :=
  { margin := (max 16 (w / 5)) % 65536, width := w % 65536, height := h % 65536 }

/-- The built-in geometry stored when the terminal size query fails. -/
def defaultSize : terminalSize :=
  { margin := 16, width := 80, height := 25 }

/-- The percent doubling `strings.ReplaceAll(scope, "%", "%%")` closing
src/logger.go `getScope`. -/
def escapePercent (l : List Char) : List Char :=
  l.flatMap (fun c => if c = '%' then ['%', '%'] else [c])

/-- src/logger.go `getScope` rendered at character level: the label text fed
into `getPrefix` (whose claims do not depend on the label's width). The
byte-faithful model of the label and its width is `getScopeBytes` and
`displayColumns` below: Go's `len(scope)`, slicing and padding count bytes,
which this character list only matches for ASCII scopes. -/
def getScopeChars (margin : Nat) (scope : List Char) : List Char :=
  let sc := if margin < scope.length
    then '…' :: scope.drop (scope.length - margin + 1)
    else scope ++ List.replicate (margin - scope.length) ' '
  escapePercent sc

/-- The UTF-8 bytes of the ellipsis character U+2026 that `getScope` prepends
when truncating. -/
def ellipsisBytes : List Nat := [226, 128, 166]

/-- The percent doubling `strings.ReplaceAll(scope, "%", "%%")` closing
src/logger.go `getScope`, on UTF-8 bytes ('%' is byte 37). -/
def escapePercentBytes (l : List Nat) : List Nat :=
  l.flatMap (fun b => if b = 37 then [37, 37] else [b])

/-- src/logger.go `getScope` on the scope's UTF-8 bytes. Go's `len(scope)`,
its slicing and `strings.Repeat` padding are all byte-based: when the scope
is longer than margin bytes the label is the three-byte ellipsis plus the
scope's last margin-1 bytes, otherwise the scope plus margin-len space bytes;
every percent byte is then doubled. -/
def getScopeBytes (margin : Nat) (scope : List Nat) : List Nat :=
  let sc := if margin < scope.length
    then ellipsisBytes ++ scope.drop (scope.length - margin + 1)
    else scope ++ List.replicate (margin - scope.length) 32
  escapePercentBytes sc

/-- Terminal columns occupied by UTF-8 bytes of single-column characters:
one column per codepoint, i.e. per byte that is not a UTF-8 continuation
byte (0x80..0xBF). -/
def displayColumns (l : List Nat) : Nat :=
  (l.filter fun b => decide (b < 128 ∨ 192 ≤ b)).length

/-- src/logger.go `ansiTable`: the per-level colour code, empty for every
level when stdout is not an interactive terminal (the empty Go map). -/
def ansiTable (tty : Bool) (lvl : LogLevel) : String :=
  if tty then
    match lvl with
    | .trace => "\x1b[90m"
    | .debug => "\x1b[34m"
    | .info => ""
    | .notice => "\x1b[32m"
    | .warn => "\x1b[33m"
    | .error => "\x1b[31m"
  else ""

/-- src/logger.go `getPrefix`. `tc` abstracts `targetColour` (the
scope-to-colour hash, defined outside src/). Empty when the logger's
threshold exceeds the requested level. -/
def getPrefix (tc : String → String) (tty : Bool) (threshold lvl : LogLevel)
    (margin : Nat) (scope : String) : String :=
  if lvl.toNat < threshold.toNat then ""
  else
    let pfx := ansiTable tty lvl
    let sc := String.mk (getScopeChars margin scope.data)
    if sc = "" then pfx else tc sc ++ sc ++ "\x1b[0m" ++ "| " ++ pfx

/-- src/logger.go `logf`: below threshold nothing is written, otherwise the
prefix, the formatted message body `msg`, a colour reset and a newline. -/
def logfOut (tc : String → String) (tty : Bool) (threshold lvl : LogLevel)
    (margin : Nat) (scope msg : String) : String :=
  if lvl.toNat < threshold.toNat then ""
  else getPrefix tc tty threshold lvl margin scope ++ msg ++ "\x1b[0m\n"

/-- Modelled from the spec: the escape segment reader's output type (the
repository's csi package is not under src/). Per spec section 3 a Segment is
either Text bytes or a Control sequence carrying its final byte, its parsed
integer parameters and its original raw bytes; `params = none` models
`IntParams` returning an error. -/
inductive Segment where
  | text (s : String)
  | control (final : Char) (params : Option (List Int)) (raw : String)
deriving DecidableEq, Repr

/-- The CSI rewriting of src/logger.go `writerScanner` (lines 338-372): the
text a processed segment turns into. `margin` is the geometry source's
currently loaded margin and `pfx` is `getPrefix(level)` as read by the
erase-in-line case. -/
def transformSegment (margin : Nat) (pfx : String) : Segment → String
  | .text s => s
  | .control fin ps raw =>
    match ps with
    | some [p] =>
      if fin = 'G' then
        "\x1b[" ++ toString (p + (margin : Int) + 2) ++ "G"
      else if fin = 'K' then
        if p = 1 ∨ p = 2 then
          "\x1b[s" ++ raw ++ "\x1b[1G" ++ pfx ++ "\x1b[u"
        else raw
      else raw
    | _ => raw

/-- One output event of the transformer worker: a whole prefix write
(one `os.Stdout.Write` of `getPrefix(level)`), one content byte, or the
warning-level log call made on a read fault (`l.Warnf`, itself subject to the
normal threshold check modelled by `logfOut`). -/
inductive OutTok where
  | pre
  | chr (c : Char)
  | warn
deriving DecidableEq, Repr

/-- The transformer worker's per-byte state (src/logger.go lines 325-326):
whether the very first prefix write is still pending (`drawPrefix`), the
buffered carriage-return/newline bytes, and the output events so far. -/
structure TState where
  draw : Bool
  newline : List Char
  out : List OutTok
deriving DecidableEq, Repr

/-- One text byte through the loop body of src/logger.go lines 375-390: a CR
or LF is buffered; any other byte first triggers the pending initial prefix,
then flushes each buffered newline byte followed by a fresh prefix, then is
written itself. -/
def stepByte (s : TState) (c : Char) : TState :=
  if c = '\r' ∨ c = '\n' then { s with newline := s.newline ++ [c] }
  else
    let out1 := if s.draw then s.out ++ [OutTok.pre] else s.out
    let out2 := out1 ++ s.newline.flatMap (fun nl => [OutTok.chr nl, OutTok.pre])
    { draw := false, newline := [], out := out2 ++ [OutTok.chr c] }

/-- A run of text bytes through the loop. -/
def runText (s : TState) (cs : List Char) : TState :=
  cs.foldl stepByte s

/-- The worker's starting state: prefix pending, nothing buffered. -/
def initState : TState :=
  { draw := true, newline := [], out := [] }

/-- On leaving its loop the worker writes the buffered newline bytes
(src/logger.go lines 330 and 333). -/
def flushFinal (s : TState) : List OutTok :=
  s.out ++ s.newline.map OutTok.chr

/-- The worker on a pure text stream: every byte through the loop, then the
final flush. -/
def processPlain (cs : List Char) : List OutTok :=
  flushFinal (runText initState cs)

/-- How the escape reader's `Read` call ends (src/logger.go lines 328-336):
clean end of stream, a closed-pipe condition, or any other read error. -/
inductive TermCond where
  | eof
  | closedPipe
  | readErr
deriving DecidableEq, Repr

/-- src/logger.go `writerScanner`: consume the segments the reader yields,
then its terminal condition. On EOF or a closed pipe the buffered newline
bytes are flushed and the worker returns quietly; on any other error they are
flushed and exactly one warning is logged. -/
def runWorker (margin : Nat) (pfx : String) :
    TState → List Segment → TermCond → List OutTok
  | s, [], .eof => flushFinal s
  | s, [], .closedPipe => flushFinal s
  | s, [], .readErr => flushFinal s ++ [OutTok.warn]
  | s, seg :: rest, t =>
    runWorker margin pfx (runText s (transformSegment margin pfx seg).data) rest t

/-- The worker's main loop without its terminal condition: every segment read
is transformed and its text pushed through the byte loop. -/
def runSegs (margin : Nat) (pfx : String) (s : TState) (segs : List Segment) :
    TState :=
  segs.foldl (fun st seg => runText st (transformSegment margin pfx seg).data) s

/-- Join blocks with a separator: states line-structured inputs and outputs. -/
def joinSep (sep : List α) : List (List α) → List α
  | [] => []
  | [l] => l
  | l :: ls => l ++ sep ++ joinSep sep ls

/-- The bytes an output event writes, given the prefix string each `pre`
event writes; a `warn` event's bytes go through `logfOut`, not this stream,
so it renders empty here. -/
def renderTok (pfx : String) : OutTok → List Char
  | .pre => pfx.data
  | .chr c => [c]
  | .warn => []

/-- The byte stream a list of output events writes. -/
def renderBytes (pfx : String) (toks : List OutTok) : List Char :=
  toks.flatMap (renderTok pfx)

/-- C1: a single-parameter cursor-horizontal-absolute control segment (final
byte G) with column c is rewritten to ESC [ (c + margin + 2) G, for every
parameter value c and every margin the geometry source currently holds. -/
theorem cha_rewrite (margin : Nat) (pfx raw : String) (c : Int) :
    transformSegment margin pfx (Segment.control 'G' (some [c]) raw) =
      "\x1b[" ++ toString (c + (margin : Int) + 2) ++ "G" := by
  rfl

/-- C2: an erase-in-line control segment (final byte K) with single parameter
1 or 2 is replaced by cursor-save, the original sequence, move-to-column-1,
the current level's prefix, and cursor-restore, in that order; with single
parameter 0 it is emitted unchanged. -/
theorem eil_rewrite (margin : Nat) (pfx raw : String) :
    transformSegment margin pfx (Segment.control 'K' (some [1]) raw) =
        "\x1b[s" ++ raw ++ "\x1b[1G" ++ pfx ++ "\x1b[u" ∧
      transformSegment margin pfx (Segment.control 'K' (some [2]) raw) =
        "\x1b[s" ++ raw ++ "\x1b[1G" ++ pfx ++ "\x1b[u" ∧
      transformSegment margin pfx (Segment.control 'K' (some [0]) raw) = raw := by
  refine ⟨?_, ?_, ?_⟩ <;> rfl

/-- C4: a control segment whose final byte is neither G nor K, one whose
parameters fail to parse, and one whose parameter list does not hold exactly
one entry, are all emitted as literal text identical to their original raw
bytes. -/
theorem passthrough_identity (margin : Nat) (pfx raw : String) :
    (∀ (fin : Char) (ps : Option (List Int)), fin ≠ 'G' → fin ≠ 'K' →
        transformSegment margin pfx (Segment.control fin ps raw) = raw) ∧
      (∀ fin : Char,
        transformSegment margin pfx (Segment.control fin none raw) = raw) ∧
      (∀ (fin : Char) (l : List Int), l.length ≠ 1 →
        transformSegment margin pfx (Segment.control fin (some l) raw) = raw) := by
  refine ⟨?_, ?_, ?_⟩
  · intro fin ps hG hK
    cases ps with
    | none => rfl
    | some l =>
      rcases l with _ | ⟨p, _ | ⟨q, rest⟩⟩
      · rfl
      · simp [transformSegment, hG, hK]
      · rfl
  · intro fin
    rfl
  · intro fin l hl
    rcases l with _ | ⟨p, _ | ⟨q, rest⟩⟩
    · rfl
    · exact absurd rfl hl
    · rfl

/-- Witness for passthrough_identity at concrete inputs. -/
theorem passthrough_identity_witness :
    transformSegment 3 "P" (Segment.control 'A' (some [5]) "R") = "R" ∧
      transformSegment 3 "P" (Segment.control 'G' none "R") = "R" ∧
      transformSegment 3 "P" (Segment.control 'G' (some [1, 2]) "R") = "R" :=
  ⟨(passthrough_identity 3 "P" "R").1 'A' (some [5]) (by decide) (by decide),
   (passthrough_identity 3 "P" "R").2.1 'G',
   (passthrough_identity 3 "P" "R").2.2 'G' [1, 2] (by decide)⟩

/-- C6 counterexample: at reported width 10 the stored margin is 16, which is
not below the stored width, so the claimed invariant margin < width fails for
widths of 16 columns or fewer. -/
theorem margin_invariant_cex :
    ¬ (computeGeometry 10 25).margin < (computeGeometry 10 25).width := by
  decide

/-- C6 amended: the built-in default geometry satisfies margin < width, and a
geometry computed from a reported width w satisfies margin < width for every
w with 17 ≤ w ≤ 65535; for widths of 16 or fewer the stored margin is 16,
which is at least the width, so the invariant does not hold there. -/
theorem margin_invariant (w h : Nat) (h17 : 17 ≤ w) (hw : w ≤ 65535) :
    defaultSize.margin < defaultSize.width ∧
      (computeGeometry w h).margin < (computeGeometry w h).width := by
  refine ⟨by decide, ?_⟩
  have hdiv : w / 5 ≤ 13107 := by omega
  have hm : max 16 (w / 5) % 65536 = max 16 (w / 5) := by
    apply Nat.mod_eq_of_lt
    omega
  have hww : w % 65536 = w := Nat.mod_eq_of_lt (by omega)
  simp only [computeGeometry, hm, hww]
  have : w / 5 < w := by omega
  omega

/-- Witness for margin_invariant at width 80, height 25. -/
theorem margin_invariant_witness :
    defaultSize.margin < defaultSize.width ∧
      (computeGeometry 80 25).margin < (computeGeometry 80 25).width :=
  margin_invariant 80 25 (by decide) (by decide)

/-- No percent byte in a byte list means the percent doubling is the
identity. -/
theorem escapePercentBytes_eq_self (l : List Nat) (h : (37 : Nat) ∉ l) :
    escapePercentBytes l = l := by
  induction l with
  | nil => rfl
  | cons b bs ih =>
    have hb : b ≠ 37 := fun hbb => h (hbb ▸ List.mem_cons_self b bs)
    have hbs : (37 : Nat) ∉ bs := fun hm => h (List.mem_cons_of_mem b hm)
    simp [escapePercentBytes, hb] at ih ⊢
    exact ih hbs

/-- Column counting distributes over appended byte lists. -/
theorem displayColumns_append (a b : List Nat) :
    displayColumns (a ++ b) = displayColumns a + displayColumns b := by
  simp [displayColumns, List.filter_append]

/-- ASCII bytes occupy one column each. -/
theorem displayColumns_ascii (l : List Nat) (h : ∀ b ∈ l, b < 128) :
    displayColumns l = l.length := by
  induction l with
  | nil => rfl
  | cons b bs ih =>
    have hb : b < 128 := h b (List.mem_cons_self b bs)
    have hbs : ∀ x ∈ bs, x < 128 := fun x hx => h x (List.mem_cons_of_mem b hx)
    simp [displayColumns, hb] at ih ⊢
    exact ih hbs

/-- C7 counterexample: with margin 16 and the one-byte scope "%", the
rendered label occupies 17 columns (the percent byte is doubled), not 16. -/
theorem scope_width_cex :
    ¬ displayColumns (getScopeBytes 16 [37]) = 16 := by
  decide

/-- C7 amended: for every margin m ≥ 1 (every margin the geometry source
stores is at least 16) and every scope of printable ASCII bytes containing
no percent sign, the rendered scope label occupies exactly m columns —
truncated byte-wise to a one-column leading ellipsis plus the scope's last
m-1 bytes when the scope is longer than m bytes, right-padded with spaces to
m bytes otherwise. A percent byte is doubled and widens the label; a
non-ASCII scope occupies fewer than m columns, Go's len and slicing being
byte counts. -/
theorem scope_width (m : Nat) (scope : List Nat) (hm : 1 ≤ m)
    (hascii : ∀ b ∈ scope, 32 ≤ b ∧ b ≤ 126) (hp : (37 : Nat) ∉ scope) :
    displayColumns (getScopeBytes m scope) = m := by
  unfold getScopeBytes
  by_cases hlen : m < scope.length
  · simp only [hlen, if_true]
    have hd : (37 : Nat) ∉ scope.drop (scope.length - m + 1) := by
      intro hmem
      exact hp (List.drop_subset _ _ hmem)
    have hall : (37 : Nat) ∉
        ellipsisBytes ++ scope.drop (scope.length - m + 1) := by
      intro hmem
      rcases List.mem_append.mp hmem with h1 | h2
      · exact absurd h1 (by decide)
      · exact hd h2
    have hdrop : ∀ b ∈ scope.drop (scope.length - m + 1), b < 128 := by
      intro b hb
      have := hascii b (List.drop_subset _ _ hb)
      omega
    rw [escapePercentBytes_eq_self _ hall, displayColumns_append,
      show displayColumns ellipsisBytes = 1 from by decide,
      displayColumns_ascii _ hdrop, List.length_drop]
    omega
  · simp only [hlen, if_false]
    have hrep : (37 : Nat) ∉ List.replicate (m - scope.length) 32 := by
      intro hmem
      have := List.eq_of_mem_replicate hmem
      omega
    have hall : (37 : Nat) ∉
        scope ++ List.replicate (m - scope.length) 32 := by
      intro hmem
      rcases List.mem_append.mp hmem with h1 | h2
      · exact hp h1
      · exact hrep h2
    have hv : ∀ b ∈ scope ++ List.replicate (m - scope.length) 32,
        b < 128 := by
      intro b hb
      rcases List.mem_append.mp hb with h1 | h2
      · have := hascii b h1
        omega
      · have := List.eq_of_mem_replicate h2
        omega
    rw [escapePercentBytes_eq_self _ hall, displayColumns_ascii _ hv]
    simp
    omega

/-- Witness for scope_width: margin 4, scope "ab" occupies 4 columns. -/
theorem scope_width_witness : displayColumns (getScopeBytes 4 [97, 98]) = 4 :=
  scope_width 4 [97, 98] (by decide) (by decide) (by decide)

/-- C9: when stdout is not an interactive terminal the per-level colour code
is empty at every level; when it is, trace is the dim grey ESC[90m, debug
blue ESC[34m, info none, notice green ESC[32m, warn yellow ESC[33m and error
red ESC[31m; and every line `logf` emits ends with the colour reset ESC[0m
before its newline. -/
theorem level_colours :
    (∀ lvl, ansiTable false lvl = "") ∧
      ansiTable true LogLevel.trace = "\x1b[90m" ∧
      ansiTable true LogLevel.debug = "\x1b[34m" ∧
      ansiTable true LogLevel.info = "" ∧
      ansiTable true LogLevel.notice = "\x1b[32m" ∧
      ansiTable true LogLevel.warn = "\x1b[33m" ∧
      ansiTable true LogLevel.error = "\x1b[31m" ∧
      ∀ (tc : String → String) (tty : Bool) (threshold lvl : LogLevel)
        (margin : Nat) (scope msg : String),
        threshold.toNat ≤ lvl.toNat →
        ∃ body,
          logfOut tc tty threshold lvl margin scope msg = body ++ "\x1b[0m\n" := by
  refine ⟨fun lvl => rfl, rfl, rfl, rfl, rfl, rfl, rfl, ?_⟩
  intro tc tty threshold lvl margin scope msg hle
  refine ⟨getPrefix tc tty threshold lvl margin scope ++ msg, ?_⟩
  rw [logfOut, if_neg (by omega)]

/-- Witness for level_colours at threshold info, level info. -/
theorem level_colours_witness :
    ∃ body,
      logfOut (fun _ => "") true LogLevel.info LogLevel.info 16 "x" "m" =
        body ++ "\x1b[0m\n" :=
  level_colours.2.2.2.2.2.2.2 (fun _ => "") true LogLevel.info LogLevel.info
    16 "x" "m" (by decide)

/-- Rendering distributes over appending output events. -/
theorem renderBytes_append (pfx : String) (a b : List OutTok) :
    renderBytes pfx (a ++ b) = renderBytes pfx a ++ renderBytes pfx b :=
  List.flatMap_append ..

/-- With the empty prefix, rendering a newline flush yields just the newline
bytes. -/
theorem renderBytes_flush (l : List Char) :
    renderBytes "" (l.flatMap fun nl => [OutTok.chr nl, OutTok.pre]) = l := by
  induction l with
  | nil => rfl
  | cons c cs ih =>
    simp only [List.flatMap_cons, renderBytes, List.flatMap_append] at ih ⊢
    rw [ih]
    rfl

/-- With the empty prefix, rendering plain content bytes is the identity. -/
theorem renderBytes_map_chr (pfx : String) (l : List Char) :
    renderBytes pfx (l.map OutTok.chr) = l := by
  induction l with
  | nil => rfl
  | cons c cs ih =>
    simp only [List.map_cons, renderBytes, List.flatMap_cons] at ih ⊢
    rw [ih]
    rfl

/-- The bytes written so far, plus the pending newline buffer, always equal
the bytes consumed so far, when every prefix write is empty. -/
theorem renderBytes_runText (cs : List Char) : ∀ s : TState,
    renderBytes "" (runText s cs).out ++ (runText s cs).newline =
      renderBytes "" s.out ++ s.newline ++ cs := by
  induction cs with
  | nil => intro s; simp [runText]
  | cons c rest ih =>
    intro s
    rw [show runText s (c :: rest) = runText (stepByte s c) rest from rfl, ih]
    by_cases hc : c = '\r' ∨ c = '\n'
    · simp [stepByte, hc]
    · simp only [stepByte, hc, if_false, ite_false]
      cases hd : s.draw <;>
          simp [renderBytes_append, renderBytes, renderTok] <;>
        exact renderBytes_flush s.newline

/-- C10: below the logger's threshold the prefix is the empty string, and the
transformer with an empty prefix writes exactly the input text bytes in
order: the threshold suppresses prefixes only, never body bytes. -/
theorem below_threshold_passthrough :
    (∀ (tc : String → String) (tty : Bool) (threshold lvl : LogLevel)
        (margin : Nat) (scope : String), lvl.toNat < threshold.toNat →
        getPrefix tc tty threshold lvl margin scope = "") ∧
      ∀ cs : List Char, renderBytes "" (processPlain cs) = cs := by
  constructor
  · intro tc tty threshold lvl margin scope h
    rw [getPrefix, if_pos h]
  · intro cs
    have h := renderBytes_runText cs initState
    simp only [initState, renderBytes, List.flatMap_nil, List.nil_append] at h
    rw [processPlain, flushFinal, renderBytes_append, renderBytes_map_chr]
    exact h

/-- Witness for below_threshold_passthrough: threshold error, level info. -/
theorem below_threshold_passthrough_witness :
    getPrefix (fun _ => "") true LogLevel.error LogLevel.info 16 "x" = "" :=
  below_threshold_passthrough.1 (fun _ => "") true LogLevel.error
    LogLevel.info 16 "x" (by decide)

/-- A newline flush holds no warning event. -/
theorem warn_not_mem_flush (l : List Char) :
    OutTok.warn ∉ l.flatMap fun nl => [OutTok.chr nl, OutTok.pre] := by
  simp [List.mem_flatMap]

/-- The byte loop never emits a warning event. -/
theorem count_warn_runText (cs : List Char) : ∀ s : TState,
    (runText s cs).out.count OutTok.warn = s.out.count OutTok.warn := by
  induction cs with
  | nil => intro s; rfl
  | cons c rest ih =>
    intro s
    rw [show runText s (c :: rest) = runText (stepByte s c) rest from rfl, ih]
    by_cases hc : c = '\r' ∨ c = '\n'
    · simp [stepByte, hc]
    · simp only [stepByte, hc, if_false, ite_false]
      cases s.draw <;>
        simp [List.count_append,
          List.count_eq_zero.mpr (warn_not_mem_flush s.newline)]

/-- The segment loop never emits a warning event. -/
theorem count_warn_runSegs (margin : Nat) (pfx : String) (segs : List Segment) :
    ∀ s : TState, (runSegs margin pfx s segs).out.count OutTok.warn =
      s.out.count OutTok.warn := by
  induction segs with
  | nil => intro s; rfl
  | cons seg rest ih =>
    intro s
    rw [show runSegs margin pfx s (seg :: rest) =
        runSegs margin pfx
          (runText s (transformSegment margin pfx seg).data) rest from rfl,
      ih, count_warn_runText]

/-- The final flush never emits a warning event. -/
theorem count_warn_flushFinal (s : TState) :
    (flushFinal s).count OutTok.warn = s.out.count OutTok.warn := by
  rw [flushFinal, List.count_append]
  have h : OutTok.warn ∉ s.newline.map OutTok.chr := by
    simp [List.mem_map]
  rw [List.count_eq_zero.mpr h]
  omega

/-- The worker run equals the segment loop, the final flush, and the warning
its terminal condition calls for. -/
theorem runWorker_eq (margin : Nat) (pfx : String) (segs : List Segment) :
    ∀ (s : TState) (t : TermCond), runWorker margin pfx s segs t =
      flushFinal (runSegs margin pfx s segs) ++
        (if t = TermCond.readErr then [OutTok.warn] else []) := by
  induction segs with
  | nil =>
    intro s t
    cases t <;> simp [runWorker, runSegs]
  | cons seg rest ih =>
    intro s t
    rw [show runWorker margin pfx s (seg :: rest) t =
        runWorker margin pfx
          (runText s (transformSegment margin pfx seg).data) rest t from rfl,
      ih]
    rfl

/-- C8: whatever segments the reader yields, clean end-of-stream and a
closed-pipe condition both make the worker flush its buffered newline bytes
and exit with no warning logged, while any other read error makes it flush
them and log exactly one warning before exiting. -/
theorem worker_termination (margin : Nat) (pfx : String) (segs : List Segment) :
    (runWorker margin pfx initState segs TermCond.eof =
        flushFinal (runSegs margin pfx initState segs) ∧
      runWorker margin pfx initState segs TermCond.closedPipe =
        flushFinal (runSegs margin pfx initState segs) ∧
      runWorker margin pfx initState segs TermCond.readErr =
        flushFinal (runSegs margin pfx initState segs) ++ [OutTok.warn]) ∧
      (runWorker margin pfx initState segs TermCond.eof).count OutTok.warn = 0 ∧
      (runWorker margin pfx initState segs TermCond.closedPipe).count
        OutTok.warn = 0 ∧
      (runWorker margin pfx initState segs TermCond.readErr).count
        OutTok.warn = 1 := by
  have h0 : (flushFinal (runSegs margin pfx initState segs)).count
      OutTok.warn = 0 := by
    rw [count_warn_flushFinal, count_warn_runSegs]
    rfl
  refine ⟨⟨?_, ?_, ?_⟩, ?_, ?_, ?_⟩ <;>
    simp [runWorker_eq, List.count_append, h0]

/-- The byte loop composes over appended input. -/
theorem runText_append (s : TState) (a b : List Char) :
    runText s (a ++ b) = runText (runText s a) b :=
  List.foldl_append ..

/-- A byte that is neither LF nor CR fails the loop's buffering test. -/
theorem not_nl_of (c : Char) (h : c ≠ '\n' ∧ c ≠ '\r') :
    ¬(c = '\r' ∨ c = '\n') := by
  rintro (h1 | h1)
  · exact h.2 h1
  · exact h.1 h1

/-- With no prefix pending and nothing buffered, a run of visible bytes is
written through unchanged. -/
theorem runText_visible (l : List Char) (hl : ∀ c ∈ l, c ≠ '\n' ∧ c ≠ '\r') :
    ∀ out : List OutTok, runText ⟨false, [], out⟩ l =
      ⟨false, [], out ++ l.map OutTok.chr⟩ := by
  induction l with
  | nil => intro out; simp [runText]
  | cons c rest ih =>
    intro out
    have hc2 := not_nl_of c (hl c (List.mem_cons_self c rest))
    rw [show runText ⟨false, [], out⟩ (c :: rest) =
        runText (stepByte ⟨false, [], out⟩ c) rest from rfl]
    have hstep : stepByte ⟨false, [], out⟩ c =
        ⟨false, [], out ++ [OutTok.chr c]⟩ := by
      simp [stepByte, hc2]
    rw [hstep, ih (fun x hx => hl x (List.mem_cons_of_mem c hx))]
    simp

/-- With the initial prefix pending, a visible line is written as one prefix
then its bytes. -/
theorem runText_lineStart (c : Char) (rest : List Char)
    (h : ∀ x ∈ c :: rest, x ≠ '\n' ∧ x ≠ '\r') :
    ∀ out : List OutTok, runText ⟨true, [], out⟩ (c :: rest) =
      ⟨false, [], out ++ OutTok.pre :: (c :: rest).map OutTok.chr⟩ := by
  intro out
  have hc2 := not_nl_of c (h c (List.mem_cons_self c rest))
  rw [show runText ⟨true, [], out⟩ (c :: rest) =
      runText (stepByte ⟨true, [], out⟩ c) rest from rfl]
  have hstep : stepByte ⟨true, [], out⟩ c =
      ⟨false, [], (out ++ [OutTok.pre]) ++ [OutTok.chr c]⟩ := by
    simp [stepByte, hc2]
  rw [hstep,
    runText_visible rest (fun x hx => h x (List.mem_cons_of_mem c hx))]
  simp

/-- With one newline buffered, a visible line is written as the newline, a
fresh prefix, then its bytes. -/
theorem runText_afterNL (c : Char) (rest : List Char)
    (h : ∀ x ∈ c :: rest, x ≠ '\n' ∧ x ≠ '\r') :
    ∀ out : List OutTok, runText ⟨false, ['\n'], out⟩ (c :: rest) =
      ⟨false, [],
        out ++ OutTok.chr '\n' :: OutTok.pre ::
          (c :: rest).map OutTok.chr⟩ := by
  intro out
  have hc2 := not_nl_of c (h c (List.mem_cons_self c rest))
  rw [show runText ⟨false, ['\n'], out⟩ (c :: rest) =
      runText (stepByte ⟨false, ['\n'], out⟩ c) rest from rfl]
  have hstep : stepByte ⟨false, ['\n'], out⟩ c =
      ⟨false, [],
        (out ++ [OutTok.chr '\n', OutTok.pre]) ++ [OutTok.chr c]⟩ := by
    simp [stepByte, hc2]
  rw [hstep,
    runText_visible rest (fun x hx => h x (List.mem_cons_of_mem c hx))]
  simp

/-- After a buffered newline, the remaining newline-joined visible lines are
written as the newline then prefix-led line blocks joined by newlines. -/
theorem runText_joinTail (lines : List (List Char)) :
    ∀ out : List OutTok,
      (∀ l ∈ lines, l ≠ [] ∧ ∀ c ∈ l, c ≠ '\n' ∧ c ≠ '\r') → lines ≠ [] →
      runText ⟨false, ['\n'], out⟩ (joinSep ['\n'] lines) =
        ⟨false, [],
          out ++ OutTok.chr '\n' ::
            joinSep [OutTok.chr '\n']
              (lines.map fun l => OutTok.pre :: l.map OutTok.chr)⟩ := by
  induction lines with
  | nil =>
    intro out hl hne
    exact absurd rfl hne
  | cons l ls ih =>
    intro out hl hne
    obtain ⟨hlne, hlv⟩ := hl l (List.mem_cons_self l ls)
    obtain ⟨c, rest, rfl⟩ := List.exists_cons_of_ne_nil hlne
    rcases ls with _ | ⟨l2, ls'⟩
    · rw [show joinSep ['\n'] [c :: rest] = c :: rest from rfl,
        runText_afterNL c rest hlv out]
      rfl
    · rw [show joinSep ['\n'] ((c :: rest) :: l2 :: ls') =
          (c :: rest) ++ ['\n'] ++ joinSep ['\n'] (l2 :: ls') from rfl,
        runText_append, runText_append, runText_afterNL c rest hlv out]
      have hstep : runText
          ⟨false, [],
            out ++ OutTok.chr '\n' :: OutTok.pre ::
              (c :: rest).map OutTok.chr⟩ ['\n'] =
          ⟨false, ['\n'],
            out ++ OutTok.chr '\n' :: OutTok.pre ::
              (c :: rest).map OutTok.chr⟩ := by
        simp [runText, stepByte]
      rw [hstep,
        ih _ (fun x hx => hl x (List.mem_cons_of_mem _ hx))
          (List.cons_ne_nil l2 ls')]
      simp [joinSep]

/-- Content bytes hold no prefix event. -/
theorem count_pre_map_chr (l : List Char) :
    (l.map OutTok.chr).count OutTok.pre = 0 :=
  List.count_eq_zero.mpr (by simp [List.mem_map])

/-- Each prefix-led line block contributes exactly one prefix event to the
joined output. -/
theorem count_pre_join (lines : List (List Char)) :
    (joinSep [OutTok.chr '\n']
        (lines.map fun l => OutTok.pre :: l.map OutTok.chr)).count
      OutTok.pre = lines.length := by
  induction lines with
  | nil => rfl
  | cons l ls ih =>
    rcases ls with _ | ⟨l2, ls'⟩
    · simp [joinSep, count_pre_map_chr]
    · rw [show joinSep [OutTok.chr '\n']
          (((l :: l2 :: ls').map fun l => OutTok.pre :: l.map OutTok.chr)) =
          (OutTok.pre :: l.map OutTok.chr) ++ [OutTok.chr '\n'] ++
            joinSep [OutTok.chr '\n']
              ((l2 :: ls').map fun l => OutTok.pre :: l.map OutTok.chr)
          from by simp [joinSep]]
      rw [List.count_append, List.count_append, ih]
      simp [count_pre_map_chr, List.length_cons]
      omega

/-- Newline-joined visible lines hold one newline fewer than lines. -/
theorem count_nl_join (lines : List (List Char)) :
    (∀ l ∈ lines, ∀ c ∈ l, c ≠ '\n') → lines ≠ [] →
      (joinSep ['\n'] lines).count '\n' + 1 = lines.length := by
  induction lines with
  | nil =>
    intro _ hne
    exact absurd rfl hne
  | cons l ls ih =>
    intro h hne
    have hl0 : l.count '\n' = 0 :=
      List.count_eq_zero.mpr
        (fun hm => h l (List.mem_cons_self l ls) '\n' hm rfl)
    rcases ls with _ | ⟨l2, ls'⟩
    · simp [joinSep, hl0]
    · have htail := ih (fun x hx => h x (List.mem_cons_of_mem _ hx))
        (List.cons_ne_nil l2 ls')
      rw [show joinSep ['\n'] (l :: l2 :: ls') =
          l ++ ['\n'] ++ joinSep ['\n'] (l2 :: ls') from rfl,
        List.count_append, List.count_append]
      simp only [List.count_cons_self, List.count_nil,
        List.length_cons] at htail ⊢
      omega

/-- C3 counterexample: the two-byte plain text "a\n" holds one newline but
the transformer emits only one prefix, not two — a trailing newline starts no
new prefixed line. -/
theorem prefix_per_line_cex :
    ¬(processPlain ['a', '\n']).count OutTok.pre =
      (['a', '\n'].count '\n') + 1 := by
  decide

/-- C3 amended: for plain text made of newline-joined nonempty lines of
visible bytes (no CR, no empty line, no leading or trailing newline), the
output is exactly the lines, each led by one fresh prefix, joined by the
newlines: in particular with k newline bytes exactly k+1 prefixes are
emitted, each immediately preceding the first visible byte of its line. -/
theorem prefix_per_line (lines : List (List Char)) (hne : lines ≠ [])
    (hl : ∀ l ∈ lines, l ≠ [] ∧ ∀ c ∈ l, c ≠ '\n' ∧ c ≠ '\r') :
    processPlain (joinSep ['\n'] lines) =
        joinSep [OutTok.chr '\n']
          (lines.map fun l => OutTok.pre :: l.map OutTok.chr) ∧
      (processPlain (joinSep ['\n'] lines)).count OutTok.pre =
        (joinSep ['\n'] lines).count '\n' + 1 := by
  obtain ⟨l, ls, rfl⟩ : ∃ l ls, lines = l :: ls := by
    cases lines with
    | nil => exact absurd rfl hne
    | cons l ls => exact ⟨l, ls, rfl⟩
  obtain ⟨hlne, hlv⟩ := hl l (List.mem_cons_self l ls)
  obtain ⟨c, rest, rfl⟩ := List.exists_cons_of_ne_nil hlne
  have hid : processPlain (joinSep ['\n'] ((c :: rest) :: ls)) =
      joinSep [OutTok.chr '\n']
        (((c :: rest) :: ls).map fun l => OutTok.pre :: l.map OutTok.chr) := by
    rcases ls with _ | ⟨l2, ls'⟩
    · rw [processPlain,
        show joinSep ['\n'] [c :: rest] = c :: rest from rfl,
        show (initState : TState) = ⟨true, [], []⟩ from rfl,
        runText_lineStart c rest hlv]
      simp [flushFinal, joinSep]
    · rw [processPlain,
        show joinSep ['\n'] ((c :: rest) :: l2 :: ls') =
          (c :: rest) ++ ['\n'] ++ joinSep ['\n'] (l2 :: ls') from rfl,
        show (initState : TState) = ⟨true, [], []⟩ from rfl,
        runText_append, runText_append, runText_lineStart c rest hlv]
      have hstep : runText
          ⟨false, [], [] ++ OutTok.pre :: (c :: rest).map OutTok.chr⟩
          ['\n'] =
          ⟨false, ['\n'], OutTok.pre :: (c :: rest).map OutTok.chr⟩ := by
        simp [runText, stepByte]
      rw [hstep,
        runText_joinTail (l2 :: ls') _
          (fun x hx => hl x (List.mem_cons_of_mem _ hx))
          (List.cons_ne_nil l2 ls')]
      simp [flushFinal, joinSep]
  refine ⟨hid, ?_⟩
  rw [hid, count_pre_join]
  have hk := count_nl_join ((c :: rest) :: ls)
    (fun x hx => fun ch hch => ((hl x hx).2 ch hch).1)
    (List.cons_ne_nil (c :: rest) ls)
  omega

/-- Witness for prefix_per_line on the two lines "a" and "b". -/
theorem prefix_per_line_witness :
    processPlain (joinSep ['\n'] [['a'], ['b']]) =
        joinSep [OutTok.chr '\n']
          ([['a'], ['b']].map fun l => OutTok.pre :: l.map OutTok.chr) ∧
      (processPlain (joinSep ['\n'] [['a'], ['b']])).count OutTok.pre =
        (joinSep ['\n'] [['a'], ['b']]).count '\n' + 1 :=
  prefix_per_line [['a'], ['b']] (by decide) (by decide)

end Clogs
